import Mathlib

/-
Verification of the witness-siglum normalization engine of the vmr2tei
converter (src/vmr2tei/common.py, witness.py, reading.py, collation.py).

The Python code is shallowly embedded: strings are Lean `String`s
manipulated through character lists, `str.replace`, `str.split`,
`str.strip` and the regular-expression searches of the source are
re-implemented as executable Lean functions with the exact semantics the
CPython engine gives them on the patterns of the source (anchored
alternations of literal branches followed by greedy digit runs), and
Python exceptions are modelled by an `Except PyErr` result.  Loops whose
termination is not structural (the suffix-stripping loops, `str.replace`
scanning) are modelled with an explicit iteration bound that is always
supplied large enough; the termination theorem for claim C9 proves the
bound is never reached for the patterns of the repository.
-/

namespace Vmr

/-- Python runtime errors that the embedded code can raise, plus the
structured error described by the spec's error-handling design §7(d)
(`missingWitnesses`), which is modelled from the spec for comparison:
the source itself never constructs such a value. -/
inductive PyErr where
  /-- `NameError: name '<n>' is not defined` -/
  | nameError (n : String)
  /-- `AttributeError: 'NoneType' object has no attribute ...` -/
  | attributeErrorNone
  /-- `IndexError: list index out of range` -/
  | indexError
  /-- `ValueError: x is not in list` -/
  | valueError
  /-- Modelled from the spec §7(d): a structured error identifying the
  offending unit and reading.  No code path in src/ produces it. -/
  | missingWitnesses (unitId readingLabel : String)
  deriving DecidableEq, Repr

/-! ## Character classes (ASCII, as used by the sigla of the source) -/

/-- The whitespace characters recognized by Python's `str.split()` /
`str.strip()` on the ASCII range (the sigla handled by the source are
ASCII apart from `Ä`, which is not whitespace). -/
def isPySpace (c : Char) : Bool :=
  c = ' ' || c = '\t' || c = '\n' || c = '\x0d' || c = '\x0b' || c = '\x0c'

def isDigitChar (c : Char) : Bool :=
  '0' ≤ c && c ≤ '9'

def isLowerChar (c : Char) : Bool :=
  'a' ≤ c && c ≤ 'z'

/-! ## Python string primitives on `List Char` -/

/-- One scanning pass of Python `str.replace` for a nonempty pattern:
leftmost, non-overlapping, replacing every occurrence.  `fuel` bounds the
recursion and is always called with `fuel ≥ length of the string`. -/
def pyReplaceCore (pat r : List Char) : Nat → List Char → List Char
  | 0, s => s
  | _, [] => []
  | fuel + 1, c :: cs =>
    if pat.isPrefixOf (c :: cs) then
      r ++ pyReplaceCore pat r fuel (cs.drop (pat.length - 1))
    else
      c :: pyReplaceCore pat r fuel cs

/-- Python `s.replace(pat, r)`.  For the empty pattern Python inserts the
replacement at every gap (`"ab".replace("", "-") = "-a-b-"`). -/
def pyReplaceL (s pat r : List Char) : List Char :=
  if pat = [] then
    r ++ (s.map fun c => c :: r).flatten
  else
    pyReplaceCore pat r s.length s

def pyReplace (s pat r : String) : String :=
  ⟨pyReplaceL s.data pat.data r.data⟩

/-- Python `s.split()` (no separator): split on whitespace runs,
discarding empty fields.  `fuel ≥ length + 1` is always supplied. -/
def pySplitL : Nat → List Char → List (List Char)
  | 0, _ => []
  | _, [] => []
  | fuel + 1, c :: cs =>
    if isPySpace c then pySplitL fuel cs
    else (c :: cs.takeWhile (fun d => !isPySpace d)) ::
      pySplitL fuel (cs.dropWhile (fun d => !isPySpace d))

def pySplit (s : String) : List String :=
  (pySplitL (s.data.length + 1) s.data).map String.mk

/-- Python `s.split(sep)` for a nonempty separator: keeps empty fields
(`"".split("/") = [""]`). -/
def pySplitSepL (sep : List Char) : Nat → List Char → List (List Char)
  | 0, s => [s]
  | fuel + 1, s =>
    match s with
    | [] => [[]]
    | c :: cs =>
      if sep ≠ [] ∧ sep.isPrefixOf (c :: cs) then
        [] :: pySplitSepL sep fuel (cs.drop (sep.length - 1))
      else
        (pySplitSepL sep fuel cs).modifyHead (c :: ·)

def pySplitSep (s sep : String) : List String :=
  (pySplitSepL sep.data (s.data.length + 1) s.data).map String.mk

/-- Python `s.strip()` (whitespace at both ends). -/
def pyStrip (s : String) : String :=
  ⟨((s.data.dropWhile isPySpace).reverse.dropWhile isPySpace).reverse⟩

/-- Python `sub in s`: substring containment. -/
def pyContainsL (s sub : List Char) : Bool :=
  (List.range (s.length + 1)).any fun i => sub.isPrefixOf (s.drop i)

def pyContains (s sub : String) : Bool :=
  pyContainsL s.data sub.data

/-- `" ".join(l)` -/
def joinSpace : List String → String
  | [] => ""
  | [x] => x
  | x :: xs => x ++ " " ++ joinSpace xs

/-- `joinSpace` at the character-list level (same structure). -/
def joinL : List (List Char) → List Char
  | [] => []
  | [x] => x
  | x :: xs => x ++ ' ' :: joinL xs

/-! ## Constants of src/vmr2tei/common.py -/

/-- ECM Byzantine witnesses (common.py, `byz_witnesses`). -/
def byz_witnesses : List String :=
  ["P57", "014", "014S", "020", "025", "049", "077", "0120", "0142", "0166",
   "0294", "1", "6", "18", "35", "43", "69", "93", "103", "104", "206S",
   "218", "228", "254", "319", "321", "323", "326", "330", "365", "378",
   "383", "424", "459", "468", "607", "617", "642", "665", "808", "876",
   "886", "1003", "1127", "1241", "1243", "1251", "1359", "1448", "1509",
   "1563", "1609", "1718", "1735", "1739S", "1827S", "1832", "1837", "1852",
   "1874", "1874S", "1890S1", "1890S2", "2243", "2374", "2570", "2774",
   "L23", "L156", "L587", "L809", "L1178"]

/-- Versional witness language abbreviations (common.py, `version_prefixes`). -/
def version_prefixes : List String :=
  ["L", "S", "K", "Ä", "A", "G", "Sl"]

def omission_string : String := "om."
def overlap_label : String := "zu"
def ambiguous_label : String := "zw"
def lac_label : String := "zz"

/-! ## Regular expressions of common.py, embedded as executable matchers

Each pattern of the source is an anchored alternation of literal branches
(optionally followed by greedy digit / `ms` runs), so its CPython
semantics is captured exactly by the predicates below. -/

/-- `papyrus_pattern = ^P\d+` : does the pattern match at the start? -/
def papyrusMatch (s : String) : Bool :=
  match s.data with
  | 'P' :: c :: _ => isDigitChar c
  | _ => false

/-- `majuscule_pattern = ^0\d+` -/
def majusculeMatch (s : String) : Bool :=
  match s.data with
  | '0' :: c :: _ => isDigitChar c
  | _ => false

/-- `minuscule_pattern = ^[1-9]\d*`: the matched group, when the pattern
matches, is the maximal leading digit run (first digit nonzero). -/
def minusculeRun (s : String) : Option String :=
  match s.data with
  | c :: cs =>
    if '1' ≤ c ∧ c ≤ '9' then some ⟨c :: cs.takeWhile isDigitChar⟩ else none
  | [] => none

def minusculeMatch (s : String) : Bool :=
  (minusculeRun s).isSome

/-- `lectionary_pattern = ^L\d+` -/
def lectionaryMatch (s : String) : Bool :=
  match s.data with
  | 'L' :: c :: _ => isDigitChar c
  | _ => false

/-- `manuscript_witness_pattern = ^(P|L|L:)?\d+`: an optional prefix
`P`, `L` or `L:` followed by at least one digit. -/
def manuscriptWitnessMatch (s : String) : Bool :=
  (["P", "L:", "L", ""].any fun p =>
    p.data.isPrefixOf s.data &&
      match s.data.drop p.data.length with
      | c :: _ => isDigitChar c
      | [] => false)

/-- `corrector_pattern = [CAK]\d*` used with `.search`: matches anywhere,
and since `\d*` may be empty it matches exactly when the string contains
one of the letters C, A, K. -/
def correctorSearch (s : String) : Bool :=
  s.data.any fun c => c = 'C' || c = 'A' || c = 'K'

/-- `version_start_pattern = ^(L|S|K|Ä|A|G|Sl)(:|>|$)` used with both
`.search` and `.match` (equivalent: the pattern is `^`-anchored). -/
def versionStartMatch (s : String) : Bool :=
  version_prefixes.any fun p =>
    s = p || (p ++ ":").data.isPrefixOf s.data || (p ++ ">").data.isPrefixOf s.data

/-- The suffix alternation of
`ignored_manuscript_suffix_pattern = (\*|T|V|f\d*)$`: does a whole tail
of the string consist of exactly one alternative (with its greedy digit
run forced to reach the end by the `$` anchor)? -/
def ignoredSuffixShape : List Char → Bool
  | [] => false
  | c :: rest =>
    (c = '*' ∧ rest = []) ∨ (c = 'T' ∧ rest = []) ∨ (c = 'V' ∧ rest = []) ∨
      (c = 'f' ∧ rest.all isDigitChar)

/-- The suffix alternation of
`all_manuscript_suffix_pattern = (\*|T|V|f\d*|C\d*|A\d*|K\d*|L\d+)$`. -/
def allSuffixShape : List Char → Bool
  | [] => false
  | c :: rest =>
    (c = '*' ∧ rest = []) ∨ (c = 'T' ∧ rest = []) ∨ (c = 'V' ∧ rest = []) ∨
      ((c = 'f' ∨ c = 'C' ∨ c = 'A' ∨ c = 'K') ∧ rest.all isDigitChar) ∨
      (c = 'L' ∧ rest ≠ [] ∧ rest.all isDigitChar)

/-- `regex.search` for a `$`-anchored suffix alternation: the leftmost
(hence longest) tail of the string satisfying the shape. -/
def searchSuffix (shape : List Char → Bool) : List Char → Option (List Char)
  | [] => none
  | c :: cs => if shape (c :: cs) then some (c :: cs) else searchSuffix shape cs

/-- `ignored_manuscript_suffix_pattern.search(s)`, returning `.group()`. -/
def searchIgnoredSuffix (s : String) : Option String :=
  (searchSuffix ignoredSuffixShape s.data).map String.mk

/-- `all_manuscript_suffix_pattern.search(s)`, returning `.group()`. -/
def searchAllSuffix (s : String) : Option String :=
  (searchSuffix allSuffixShape s.data).map String.mk

/-- `latin_version_pattern = ^(V|AU|HIL|QU|\d+)` with `.match`: the
matched prefix, trying the alternatives in the engine's order. -/
def latinVersionMatch (s : String) : Option String :=
  if "V".data.isPrefixOf s.data then some "V"
  else if "AU".data.isPrefixOf s.data then some "AU"
  else if "HIL".data.isPrefixOf s.data then some "HIL"
  else if "QU".data.isPrefixOf s.data then some "QU"
  else
    match s.data.takeWhile isDigitChar with
    | [] => none
    | ds => some ⟨ds⟩

/-- The greedy `(mss|ms)*` tail used by the Syriac and Coptic patterns:
consume `mss` in preference to `ms` repeatedly. -/
def msRun : Nat → List Char → List Char
  | 0, _ => []
  | fuel + 1, s =>
    if "mss".data.isPrefixOf s then 'm' :: 's' :: 's' :: msRun fuel (s.drop 3)
    else if "ms".data.isPrefixOf s then 'm' :: 's' :: msRun fuel (s.drop 2)
    else []

/-- `syriac_version_pattern = ^(A|P|HT|HM|HA|H)(mss|ms)*` with `.match`. -/
def syriacVersionMatch (s : String) : Option String :=
  (["A", "P", "HT", "HM", "HA", "H"].findSome? fun p =>
    if p.data.isPrefixOf s.data then
      some ⟨p.data ++ msRun s.data.length (s.data.drop p.data.length)⟩
    else none)

/-- `coptic_version_pattern = ^(S|B|M|F)(mss|ms)*` with `.match`. -/
def copticVersionMatch (s : String) : Option String :=
  (["S", "B", "M", "F"].findSome? fun p =>
    if p.data.isPrefixOf s.data then
      some ⟨p.data ++ msRun s.data.length (s.data.drop p.data.length)⟩
    else none)

/-- `slavonic_version_pattern = ^(Ch|E|M|O|Si|St|V)` with `.match`. -/
def slavonicVersionMatch (s : String) : Option String :=
  (["Ch", "E", "M", "O", "Si", "St", "V"].findSome? fun p =>
    if p.data.isPrefixOf s.data then some p else none)

/-- `defective_reading_label_pattern = ^[a-z]+f\d*$`: the whole string is
a nonempty lowercase run, then `f`, then digits. -/
def defectiveLabelMatch (s : String) : Bool :=
  (List.range s.data.length).any fun i =>
    decide (0 < i) && (s.data.take i).all isLowerChar &&
      match s.data.drop i with
      | 'f' :: rest => rest.all isDigitChar
      | _ => false

/-- `orthographic_reading_label_pattern = ^[a-z]+o\d*$`. -/
def orthographicLabelMatch (s : String) : Bool :=
  (List.range s.data.length).any fun i =>
    decide (0 < i) && (s.data.take i).all isLowerChar &&
      match s.data.drop i with
      | 'o' :: rest => rest.all isDigitChar
      | _ => false

/-! ## common.py: `split_versional_witnesses` -/

def splitVersionalCore (rexFn : String → Option String) : Nat → String → List String
  | 0, _ => []
  | fuel + 1, s =>
    match rexFn s with
    | none => []
    | some p => p :: splitVersionalCore rexFn fuel ⟨s.data.drop p.data.length⟩

/-- common.py `split_versional_witnesses(siglum, regex)`: repeatedly peel
the regex's prefix match off the front, collecting the matches.  Every
alternative of the version patterns consumes at least one character, so
the bound `length + 1` is never reached. -/
def split_versional_witnesses (siglum : String) (rexFn : String → Option String) :
    List String :=
  splitVersionalCore rexFn (siglum.data.length + 1) siglum

/-! ## common.py: `expand_parenthetical_suffixes` -/

/-- One match attempt of `witness_with_parentheses_pattern =
(\S+)\(([^\(\)]*)\)` at a fixed start position (given as the tail `t`):
the greedy `\S+` tries the rightmost `(` inside the leading non-space run
first, then backtracks leftwards; `[^()]*` is forced up to the next
paren, which must be `)`.  Returns `(group1, group2, match length)`. -/
def parenMatchAt (t : List Char) : Option (List Char × List Char × Nat) :=
  let run := t.takeWhile fun c => ¬ isPySpace c
  (((List.range run.length).filter fun k =>
      decide (1 ≤ k) && (run.drop k).headD ' ' = '(').reverse).findSome? fun k =>
    let t' := t.drop (k + 1)
    let inner := t'.takeWhile fun c => c ≠ '(' ∧ c ≠ ')'
    match t'.drop inner.length with
    | ')' :: _ => some (t.take k, inner, k + 1 + inner.length + 1)
    | _ => none

/-- `witness_with_parentheses_pattern.findall(s)`: left-to-right,
non-overlapping scan. -/
def parenFindAll : Nat → List Char → List (List Char × List Char)
  | 0, _ => []
  | _ + 1, [] => []
  | fuel + 1, c :: cs =>
    match parenMatchAt (c :: cs) with
    | some (g1, g2, len) => (g1, g2) :: parenFindAll fuel ((c :: cs).drop len)
    | none => parenFindAll fuel cs

/-- common.py `expand_parenthetical_suffixes(wit_str)`. -/
def expand_parenthetical_suffixes (wit_str : String) : String :=
  let pmatches := parenFindAll (wit_str.data.length + 1) wit_str.data
  pmatches.foldl
    (fun acc m =>
      let wit : String := ⟨m.1⟩
      let inner : String := ⟨m.2⟩
      let suffixes := pySplitSep (pyReplace inner " " "") ","
      let expanded := suffixes.map fun sfx => wit ++ sfx
      pyReplace acc (wit ++ "(" ++ inner ++ ")") (joinSpace expanded))
    wit_str

/-! ## common.py: `normalize_versional_sigla` -/

def hasColon (s : String) : Bool :=
  s.data.any (· = ':')

def splitColon (s : String) : List String :=
  pySplitSep s ":"

/-- The `versional_witness_regex` selection of common.py lines 236-244:
`None` (modelled as `Option.none`, whose use raises `AttributeError`) for
every prefix other than L, S, K, Sl. -/
def versionRegexFor (p : String) : Option (String → Option String) :=
  if p = "L" then some latinVersionMatch
  else if p = "S" then some syriacVersionMatch
  else if p = "K" then some copticVersionMatch
  else if p = "Sl" then some slavonicVersionMatch
  else none

/-- The scanning loop of `normalize_versional_sigla` (common.py lines
219-263), threading the current `version_prefix` and accumulating
`old_versional_sigla` and `normalized_versional_sigla`. -/
def normLoop : String → List String → Except PyErr (List String × List String)
  | _, [] => .ok ([], [])
  | vpre, wit :: rest =>
    if vpre = "" ∧ ¬ versionStartMatch wit then
      normLoop vpre rest
    else if versionStartMatch wit then
      if hasColon wit then
        let p := (splitColon wit).headD ""
        let suffix := (splitColon wit).getD 1 ""
        match versionRegexFor p with
        | none => .error .attributeErrorNone
        | some rexFn => do
          let oldSigla := split_versional_witnesses suffix rexFn
          let newSigla := oldSigla.map fun o => p ++ ":" ++ o
          let (olds, news) ← normLoop p rest
          .ok (wit :: olds, joinSpace newSigla :: news)
      else do
        let (olds, news) ← normLoop wit rest
        .ok (wit :: olds, (wit ++ ":" ++ wit) :: news)
    else do
      let (olds, news) ← normLoop vpre rest
      .ok (wit :: olds, (vpre ++ ":" ++ wit) :: news)

/-- common.py `normalize_versional_sigla(wit_str)`: run the scan over the
whitespace-split tokens, then splice the rewritten block back in with a
single string `replace`. -/
def normalize_versional_sigla (wit_str : String) : Except PyErr String := do
  let (olds, news) ← normLoop "" (pySplit wit_str)
  .ok (pyReplace wit_str (joinSpace olds) (joinSpace news))

/-! ## common.py: the per-reading cleanup steps of `cleanup_witness_lists`
(lines 280-296) -/

/-- The normalization pipeline applied to one reading's `witnesses`
string by `cleanup_witness_lists` (common.py lines 282-296): period →
space, bracket stripping, `>` stripping, `": "` → `":"`, one double-space
collapse pass, escaped-trailing-space removal, parenthetical-suffix
expansion, versional-sigla normalization. -/
def cleanupReadingString (w : String) : Except PyErr String :=
  let w := pyReplace w "." " "
  let w := pyReplace w "[" ""
  let w := pyReplace w "]" ""
  let w := pyReplace w ">" ""
  let w := pyReplace w ": " ":"
  let w := pyReplace w "  " " "
  let w := pyReplace w " &nbsp;" ""
  let w := expand_parenthetical_suffixes w
  normalize_versional_sigla w

/-! ## common.py / collation.py: `get_base_manuscript_siglum` -/

/-- Python `base[:-len(suffix)]`; for `len(suffix) = 0` Python's `[:-0]`
is `[:0]`, the empty string. -/
def pyStripEnd (s : String) (k : Nat) : String :=
  if k = 0 then "" else ⟨s.data.take (s.data.length - k)⟩

/-- The suffix-stripping loop of the module-level
`get_base_manuscript_siglum` (common.py lines 150-159), with an explicit
iteration bound. -/
def getBaseLoop (sfx : String → Option String) : Nat → String → String
  | 0, s => s
  | fuel + 1, s =>
    match sfx s with
    | none => s
    | some m => getBaseLoop sfx fuel (pyStripEnd s m.data.length)

/-- common.py `get_base_manuscript_siglum(siglum, regex)`.  The iteration
bound `length + 1` is never reached (theorem for claim C9). -/
def get_base_manuscript_siglum (siglum : String)
    (sfx : String → Option String := searchAllSuffix) : String :=
  getBaseLoop sfx (siglum.data.length + 1) siglum

/-- The suffix-stripping loop of `Collation.get_base_manuscript_siglum`
(collation.py lines 42-56), which first consults the witness registry
(`witness_inds_by_id`, modelled as the list of registered ids) before
each stripping step. -/
def collGetBaseLoop (known : List String) (sfx : String → Option String) :
    Nat → String → String
  | 0, s => s
  | fuel + 1, s =>
    if s ∈ known then s
    else
      match sfx s with
      | none => s
      | some m => collGetBaseLoop known sfx fuel (pyStripEnd s m.data.length)

namespace Collation

/-- collation.py `Collation.get_base_manuscript_siglum(siglum, regex)`:
strips suffixes until the intermediate siglum is a registered witness id
or no further suffix matches. -/
def get_base_manuscript_siglum (known : List String) (siglum : String)
    (sfx : String → Option String := searchAllSuffix) : String :=
  collGetBaseLoop known sfx (siglum.data.length + 1) siglum

end Collation

/-! ## common.py: `cleanup_witness_lists` (two-pass Byz expansion) -/

/-- The covered-manuscript extraction of common.py lines 300-307: per
token of the cleaned witness string, skip tokens that do not look like a
manuscript or that look like a corrector, and take the base siglum of the
rest (ignored-suffix pattern). -/
def coveredOf (w : String) : List String :=
  (pySplit w).filterMap fun wit =>
    if ¬ manuscriptWitnessMatch wit ∨ correctorSearch wit then none
    else some (get_base_manuscript_siglum wit searchIgnoredSuffix)

/-- First pass of `cleanup_witness_lists` over one segment's readings
(common.py lines 278-307): normalize each `witnesses` attribute (a
missing attribute is `none` and raises `AttributeError` at the first
`.replace`) and accumulate the covered manuscripts. -/
def cleanupPass1 : List (Option String) → Except PyErr (List String × List String)
  | [] => .ok ([], [])
  | r :: rest =>
    match r with
    | none => .error .attributeErrorNone
    | some w => do
      let cw ← cleanupReadingString w
      let (ws, cov) ← cleanupPass1 rest
      .ok (cw :: ws, coveredOf cw ++ cov)

/-- Both passes of `cleanup_witness_lists` over one segment, with the
group-membership list as the `byz` parameter (the source consults the
module-level `byz_witnesses` list; `cleanup_witness_lists` below
instantiates it).  Pass 2 (common.py lines 308-314) replaces every `Byz`
occurrence by the space-joined members not covered by any reading. -/
def cleanupSegment (byz : List String) (readings : List (Option String)) :
    Except PyErr (List String) := do
  let (ws, covered) ← cleanupPass1 readings
  let remaining := byz.filter fun b => ¬ b ∈ covered
  .ok (ws.map fun w =>
    if pyContains w "Byz" then pyReplace w "Byz" (joinSpace remaining) else w)

/-- common.py `cleanup_witness_lists(xml)`: the tree is modelled as the
list of its segments, each segment as the list of its segmentReadings'
`witnesses` attributes. -/
def cleanup_witness_lists (segments : List (List (Option String))) :
    Except PyErr (List (List String)) :=
  segments.mapM (cleanupSegment byz_witnesses)

/-! ## witness.py: `Witness.get_key` -/

/-- One entry of the sort-key tuple built by `Witness.get_key`: Python
builds a heterogeneous tuple of ints and strings. -/
inductive KeyElem where
  | num (n : Nat)
  | str (s : String)
  deriving DecidableEq, Repr

/-- The type actually used for the sort key (witness.py lines 55-68): a
`None` or `"corrector"` type is replaced by the type inferred from the
shape of the id; any other given type is kept as is. -/
def effectiveWitnessType (witness_type : Option String) (wit_id : String) : String :=
  if witness_type = none ∨ witness_type = some "corrector" then
    if papyrusMatch wit_id then "papyrus"
    else if majusculeMatch wit_id then "majuscule"
    else if minusculeMatch wit_id then "minuscule"
    else if lectionaryMatch wit_id then "lectionary"
    else if versionStartMatch wit_id then "version"
    else "father"
  else witness_type.getD ""

/-- Python `int(...)` on a digit string. -/
def natOfDigits (s : String) : Nat :=
  s.data.foldl (fun a c => a * 10 + (c.toNat - '0'.toNat)) 0

/-- witness.py lines 87-97: the numeric sort-key component (the leading
nonzero digit run of what remains of the id, or the sentinel `10000`)
followed by the residual string, if any, appended to the rank prefix. -/
def numericFinish (ks : List KeyElem) (wid : String) : List KeyElem :=
  if wid = "" then ks else ks ++ [KeyElem.str wid]

def numericAndResidual (ks : List KeyElem) (wid : String) : List KeyElem :=
  match minusculeRun wid with
  | some run =>
    numericFinish (ks ++ [KeyElem.num (natOfDigits run)]) ⟨wid.data.drop run.data.length⟩
  | none => numericFinish (ks ++ [KeyElem.num 10000]) wid

namespace Witness

/-- witness.py `Witness.get_key(self)` for a witness with the given id
and type.  The version branch can raise: `wit_id.split(":")[1]` is an
`IndexError` when the id has no colon (witness.py line 83), and
`version_prefixes.index(version)` is a `ValueError` when the part before
the first colon is not a configured version prefix (line 84). -/
def get_key (id : String) (witness_type : Option String) :
    Except PyErr (List KeyElem) :=
  let wt := effectiveWitnessType witness_type id
  if wt = "papyrus" then
    .ok (numericAndResidual [KeyElem.num 1] ⟨id.data.drop 1⟩)
  else if wt = "majuscule" then
    .ok (numericAndResidual [KeyElem.num 2] ⟨id.data.drop 1⟩)
  else if wt = "minuscule" then
    .ok (numericAndResidual [KeyElem.num 3] id)
  else if wt = "lectionary" then
    .ok (numericAndResidual [KeyElem.num 4] ⟨id.data.drop 1⟩)
  else if wt = "version" then
    if hasColon id then
      match version_prefixes.indexOf? ((splitColon id).headD "") with
      | none => .error .valueError
      | some i => .ok (numericAndResidual [KeyElem.num (5 + i)] ((splitColon id).getD 1 ""))
    else .error .indexError
  else if wt = "father" then
    .ok (numericAndResidual [KeyElem.num (5 + version_prefixes.length)] id)
  else
    .ok (numericAndResidual [] id)

end Witness

/-! Sorting by the key, as Python's `list.sort` does through
`Witness.__lt__` (tuple comparison: lexicographic; ints by value, strings
by code points, a shorter tuple that is a prefix of a longer one sorts
first).  A cross-kind int/string comparison raises `TypeError` in Python;
it is never reached for keys produced by `get_key` (entries one and two
are always numeric, entry three a string) and is arbitrarily `false`
here. -/

def charLtB (a b : Char) : Bool :=
  a.toNat < b.toNat

def strLtL : List Char → List Char → Bool
  | [], [] => false
  | [], _ :: _ => true
  | _ :: _, [] => false
  | a :: as, b :: bs => charLtB a b || (a = b && strLtL as bs)

def strLtB (a b : String) : Bool :=
  strLtL a.data b.data

def keyLtB : List KeyElem → List KeyElem → Bool
  | [], [] => false
  | [], _ :: _ => true
  | _ :: _, [] => false
  | a :: as, b :: bs =>
    match a, b with
    | .num x, .num y => decide (x < y) || (decide (x = y) && keyLtB as bs)
    | .str x, .str y => strLtB x y || (x = y && keyLtB as bs)
    | .num _, .str _ => false
    | .str _, .num _ => false

def insertKey (k : List KeyElem) : List (List KeyElem) → List (List KeyElem)
  | [] => [k]
  | x :: xs => if keyLtB k x then k :: x :: xs else x :: insertKey k xs

/-- Sorting a list of keys (insertion sort; agrees with Python's stable
sort on lists of distinct keys). -/
def sortKeys (ks : List (List KeyElem)) : List (List KeyElem) :=
  ks.foldr insertKey []

/-! ## reading.py: `Reading.parse_xml` -/

/-- A VMR `segmentReading` element, reduced to the attributes and text
content `Reading.parse_xml` reads; a missing attribute is `none`
(`xml.get` returns Python `None`). -/
structure SegmentReadingElem where
  label : Option String
  reading : Option String
  witnesses : Option String
  text : Option String
  deriving DecidableEq, Repr

/-- The fields of a `Reading` populated by `parse_xml`. -/
structure Reading where
  id : String
  type : Option String
  targets : List String
  wits : List String
  text : Option String
  deriving DecidableEq, Repr

namespace Reading

/-- reading.py `Reading.parse_xml` as written: line 51 computes the
marker-stripped label and stores it in `self.id`, but line 54
(`defective_reading_label_pattern.match(label)`) reads a name `label`
that is bound nowhere — not a local of the method, not a global of
reading.py, and not imported from common.py — so every call that gets
past line 51 raises `NameError: name 'label' is not defined`. -/
def parse_xml (xml : SegmentReadingElem) (_singular_to_subreading : Bool) :
    Except PyErr Reading :=
  match xml.label with
  | none => .error .attributeErrorNone
  | some lab =>
    let _id := pyStrip (pyReplace lab "â™¦" "")
    .error (.nameError "label")

/-- The label-to-type inference of reading.py lines 53-63, applied to the
marker-stripped label. -/
def typeOfLabel (lab : String) : Option String :=
  if defectiveLabelMatch lab then some "defective"
  else if orthographicLabelMatch lab then some "orthographic"
  else if lab = overlap_label then some "overlap"
  else if lab = ambiguous_label then some "ambiguous"
  else if lab = lac_label then some "lac"
  else none

/-- The target extraction of reading.py lines 66-68: only an ambiguous
reading reads its `reading` attribute (a missing attribute raises
`AttributeError` at `.replace`); every other type gets no targets. -/
def targetsOf (ty : Option String) (rd : Option String) :
    Except PyErr (List String) :=
  if ty = some "ambiguous" then
    match rd with
    | none => .error .attributeErrorNone
    | some r => .ok (pySplitSep (pyReplace r "_f" "") "/")
  else .ok []

/-- The text extraction of reading.py lines 76-79: no text for the
ambiguous/overlap/lac types; otherwise the element text unless it is the
omission marker (or absent). -/
def textOf (ty : Option String) (raw : Option String) : Option String :=
  if ty ∉ [some "ambiguous", some "overlap", some "lac"] then
    match raw with
    | some tx => if tx ≠ omission_string then some tx else none
    | none => none
  else none

/-- Modelled from the spec §4.4: `Reading.parse_xml` with the single
evident slip repaired — the unbound name `label` of reading.py lines
54-62 is bound to the marker-stripped label that line 51 stores in
`self.id`.  Every other step follows reading.py lines 51-79 verbatim. -/
def parse_xml_model (xml : SegmentReadingElem) (singular_to_subreading : Bool) :
    Except PyErr Reading :=
  match xml.label with
  | none => .error .attributeErrorNone
  | some l =>
    let lab := pyStrip (pyReplace l "â™¦" "")
    let ty := typeOfLabel lab
    match targetsOf ty xml.reading with
    | .error e => .error e
    | .ok tgts =>
      match xml.witnesses with
      | none => .error .attributeErrorNone
      | some w =>
        let wits := pySplit w
        let ty2 :=
          if singular_to_subreading ∧ ty = none ∧ wits.length ≤ 1 then
            some "subreading"
          else ty
        .ok ⟨lab, ty2, tgts, wits, textOf ty2 xml.text⟩

end Reading

/-- Modelled from the spec §4.1 step 7 (the claimed semantics of the
versional-block rewrite, for comparison with `normalize_versional_sigla`):
scanning the block that starts at the first version-start token, a bare
version-start token `t` becomes `t:t` and opens the context `t`; every
other bare token inherits the current context as a `prefix:` rewrite. -/
def specNormalizeBlock (vpre : String) : List String → List String
  | [] => []
  | t :: ts =>
    if versionStartMatch t then (t ++ ":" ++ t) :: specNormalizeBlock t ts
    else (vpre ++ ":" ++ t) :: specNormalizeBlock vpre ts

/-! # Theorems -/

/-- **C1** (code bug).  The spec documents the per-reading cleanup
pipeline as idempotent (`cleanup(cleanup(s)) == cleanup(s)` for all
witness strings), but the double-space collapse of common.py line 290 is
a single non-overlapping `str.replace` pass, so the triple space produced
by the period substitution in `"01 . 02"` leaves a double space behind
and a second application of the pipeline still changes the string. -/
theorem c1_cleanup_not_idempotent :
    cleanupReadingString "01 . 02" = Except.ok "01  02" ∧
    cleanupReadingString "01  02" = Except.ok "01 02" ∧
    ("01  02" : String) ≠ "01 02" := by
  refine ⟨rfl, rfl, by decide⟩

/-- **C2** (confirmed).  `cleanup_witness_lists` expands the `Byz` group
token per segment from a coverage set computed in a prior pass over all
readings of the segment: with group membership `["014", "025", "049"]`,
a reading citing `"014 Byz"` next to a reading citing `"025"` is
rewritten to exactly the witnesses `014` and `049` — `025` is excluded
because it is independently attested in the other reading. -/
theorem c2_byz_expansion_two_pass :
    cleanupSegment ["014", "025", "049"] [some "014 Byz", some "025"] =
      Except.ok ["014 049", "025"] ∧
    pySplit "014 049" = ["014", "049"] := by
  refine ⟨rfl, rfl⟩

theorem string_length_mk (l : List Char) : (String.mk l).length = l.length := rfl

/-- A `$`-anchored suffix search only ever returns a nonempty tail of its
input (for any alternation shape). -/
theorem searchSuffix_length (shape : List Char → Bool) :
    ∀ (l m : List Char), searchSuffix shape l = some m →
      1 ≤ m.length ∧ m.length ≤ l.length := by
  intro l
  induction l with
  | nil => intro m h; simp [searchSuffix] at h
  | cons c cs ih =>
    intro m h
    by_cases hs : shape (c :: cs)
    · simp only [searchSuffix, hs, if_pos, Option.some.injEq] at h
      subst h
      exact ⟨Nat.succ_le_succ (Nat.zero_le _), Nat.le_refl _⟩
    · simp only [searchSuffix, hs, if_neg, Bool.false_eq_true, not_false_iff] at h
      obtain ⟨h1, h2⟩ := ih m h
      exact ⟨h1, Nat.le_succ_of_le h2⟩

/-- Removing a nonempty suffix strictly shortens the string. -/
theorem pyStripEnd_length_lt (s : String) (k : Nat) (h1 : 1 ≤ k)
    (h2 : k ≤ s.length) : (pyStripEnd s k).length < s.length := by
  unfold pyStripEnd
  have hk : ¬ k = 0 := by omega
  rw [if_neg hk]
  have hlen : s.length = s.data.length := rfl
  simp only [string_length_mk, List.length_take]
  omega

/-- Fuel-independence of the module-level suffix-stripping loop beyond
`length + 1` iterations. -/
theorem getBaseLoop_fuel_stable (sfx : String → Option String)
    (hs : ∀ t u, sfx t = some u → 1 ≤ u.length ∧ u.length ≤ t.length) :
    ∀ (n₁ : Nat) (s : String) (n₂ : Nat), s.length < n₁ → s.length < n₂ →
      getBaseLoop sfx n₁ s = getBaseLoop sfx n₂ s := by
  intro n₁
  induction n₁ with
  | zero => intro s n₂ h1 _; exact absurd h1 (Nat.not_lt_zero _)
  | succ a ih =>
    intro s n₂ h1 h2
    cases n₂ with
    | zero => exact absurd h2 (Nat.not_lt_zero _)
    | succ b =>
      cases hm : sfx s with
      | none => simp only [getBaseLoop, hm]
      | some m =>
        simp only [getBaseLoop, hm]
        obtain ⟨hm1, hm2⟩ := hs s m hm
        have hlt : (pyStripEnd s m.data.length).length < s.length :=
          pyStripEnd_length_lt s m.data.length hm1 hm2
        exact ih (pyStripEnd s m.data.length) b (by omega) (by omega)

/-- Fuel-independence of the registry-consulting suffix-stripping loop. -/
theorem collGetBaseLoop_fuel_stable (known : List String)
    (sfx : String → Option String)
    (hs : ∀ t u, sfx t = some u → 1 ≤ u.length ∧ u.length ≤ t.length) :
    ∀ (n₁ : Nat) (s : String) (n₂ : Nat), s.length < n₁ → s.length < n₂ →
      collGetBaseLoop known sfx n₁ s = collGetBaseLoop known sfx n₂ s := by
  intro n₁
  induction n₁ with
  | zero => intro s n₂ h1 _; exact absurd h1 (Nat.not_lt_zero _)
  | succ a ih =>
    intro s n₂ h1 h2
    cases n₂ with
    | zero => exact absurd h2 (Nat.not_lt_zero _)
    | succ b =>
      by_cases hk : s ∈ known
      · simp only [collGetBaseLoop, if_pos hk]
      · simp only [collGetBaseLoop, if_neg hk]
        cases hm : sfx s with
        | none => rfl
        | some m =>
          obtain ⟨hm1, hm2⟩ := hs s m hm
          have hlt : (pyStripEnd s m.data.length).length < s.length :=
            pyStripEnd_length_lt s m.data.length hm1 hm2
          exact ih (pyStripEnd s m.data.length) b (by omega) (by omega)

/-- **C9** (confirmed).  Every match of the two suffix regexes is a
nonempty suffix of the input, so the suffix-stripping loops of both
`get_base_manuscript_siglum` versions shorten the string by at least one
character per iteration and terminate within `len(siglum)` iterations:
the result is independent of any iteration bound exceeding the length. -/
theorem c9_suffix_stripping_terminates :
    (∀ s m, searchIgnoredSuffix s = some m → 1 ≤ m.length ∧ m.length ≤ s.length) ∧
    (∀ s m, searchAllSuffix s = some m → 1 ≤ m.length ∧ m.length ≤ s.length) ∧
    (∀ (sfx : String → Option String),
        (∀ t u, sfx t = some u → 1 ≤ u.length ∧ u.length ≤ t.length) →
        ∀ (s : String) (n₁ n₂ : Nat), s.length < n₁ → s.length < n₂ →
          getBaseLoop sfx n₁ s = getBaseLoop sfx n₂ s) ∧
    (∀ (known : List String) (sfx : String → Option String),
        (∀ t u, sfx t = some u → 1 ≤ u.length ∧ u.length ≤ t.length) →
        ∀ (s : String) (n₁ n₂ : Nat), s.length < n₁ → s.length < n₂ →
          collGetBaseLoop known sfx n₁ s = collGetBaseLoop known sfx n₂ s) := by
  refine ⟨?_, ?_, ?_, ?_⟩
  · intro s m h
    unfold searchIgnoredSuffix at h
    cases hm' : searchSuffix ignoredSuffixShape s.data with
    | none => rw [hm'] at h; exact absurd h (by simp)
    | some m' =>
      rw [hm', Option.map_some'] at h
      cases h
      exact searchSuffix_length ignoredSuffixShape s.data m' hm'
  · intro s m h
    unfold searchAllSuffix at h
    cases hm' : searchSuffix allSuffixShape s.data with
    | none => rw [hm'] at h; exact absurd h (by simp)
    | some m' =>
      rw [hm', Option.map_some'] at h
      cases h
      exact searchSuffix_length allSuffixShape s.data m' hm'
  · intro sfx hsfx s n₁ n₂ h1 h2
    exact getBaseLoop_fuel_stable sfx hsfx n₁ s n₂ h1 h2
  · intro known sfx hsfx s n₁ n₂ h1 h2
    exact collGetBaseLoop_fuel_stable known sfx hsfx n₁ s n₂ h1 h2

/-- Witness for C9: the stabilization applied at a concrete siglum with
the concrete `all_manuscript_suffix_pattern` search. -/
theorem c9_witness :
    getBaseLoop searchAllSuffix 6 "69C2*" = getBaseLoop searchAllSuffix 9 "69C2*" :=
  c9_suffix_stripping_terminates.2.2.1 searchAllSuffix
    c9_suffix_stripping_terminates.2.1 "69C2*" 6 9 (by decide) (by decide)

/-- **C5** (confirmed).  `Collation.get_base_manuscript_siglum` checks
the registry before every stripping step, including before the first one:
a siglum that is already a registered witness id is returned unchanged,
and the loop otherwise strips suffixes until a registered id (or no
further suffix) is found — e.g. `"01*C2"` resolves to `"01*"` when
`"01*"` is registered, to `"01"` when `"01"` is, and the module-level
variant (no registry) strips all the way to `"01"`. -/
theorem c5_base_siglum_early_return :
    (∀ (known : List String) (sfx : String → Option String) (s : String),
        s ∈ known → Collation.get_base_manuscript_siglum known s sfx = s) ∧
    Collation.get_base_manuscript_siglum ["01*"] "01*C2" = "01*" ∧
    Collation.get_base_manuscript_siglum ["01"] "01*C2" = "01" ∧
    get_base_manuscript_siglum "01*C2" = "01" := by
  refine ⟨?_, rfl, rfl, rfl⟩
  intro known sfx s hs
  show collGetBaseLoop known sfx (s.data.length + 1) s = s
  simp only [collGetBaseLoop, if_pos hs]

/-- Witness for C5: a registered siglum (even one carrying a strippable
corrector suffix) is returned unchanged. -/
theorem c5_witness :
    Collation.get_base_manuscript_siglum ["69C"] "69C" = "69C" :=
  c5_base_siglum_early_return.1 ["69C"] searchAllSuffix "69C" (by decide)

/-- **C10** (confirmed).  `Witness.get_key` succeeds exactly when the
witness's effective type is not `version`, or it is `version` and the id
contains a colon whose prefix is a configured version language: the
split-indexing `wit_id.split(":")[1]` raises `IndexError` without a
colon, `version_prefixes.index(version)` raises `ValueError` for an
unknown prefix, and no other branch of the key computation can raise. -/
theorem c10_get_key_total_iff :
    ∀ (witness_type : Option String) (id : String),
      (∃ k, Witness.get_key id witness_type = Except.ok k) ↔
        (effectiveWitnessType witness_type id = "version" →
          hasColon id = true ∧ (splitColon id).headD "" ∈ version_prefixes) := by
  intro t id
  simp only [Witness.get_key]
  split_ifs with h1 h2 h3 h4 h5 h6 h7
  · exact iff_of_true ⟨_, rfl⟩ (fun hv => absurd (h1.symm.trans hv) (by decide))
  · exact iff_of_true ⟨_, rfl⟩ (fun hv => absurd (h2.symm.trans hv) (by decide))
  · exact iff_of_true ⟨_, rfl⟩ (fun hv => absurd (h3.symm.trans hv) (by decide))
  · exact iff_of_true ⟨_, rfl⟩ (fun hv => absurd (h4.symm.trans hv) (by decide))
  · cases hidx : version_prefixes.indexOf? ((splitColon id).headD "") with
    | none =>
      refine iff_of_false ?_ ?_
      · rintro ⟨k, hk⟩; simp at hk
      · intro hr
        obtain ⟨-, hm⟩ := hr h5
        have hne := (List.indexOf?_eq_none_iff).mp hidx _ hm
        simp at hne
    | some i =>
      refine iff_of_true ⟨_, rfl⟩ (fun _ => ⟨h6, ?_⟩)
      by_contra hmem
      rw [(List.indexOf?_eq_none_iff).mpr ?_] at hidx
      · exact Option.noConfusion hidx
      · intro y hy
        simp only [beq_iff_eq]
        rintro rfl
        exact hmem hy
  · refine iff_of_false ?_ ?_
    · rintro ⟨k, hk⟩; simp at hk
    · intro hr; exact h6 (hr h5).1
  · exact iff_of_true ⟨_, rfl⟩ (fun hv => absurd hv h5)
  · exact iff_of_true ⟨_, rfl⟩ (fun hv => absurd hv h5)

theorem string_data_append (a b : String) : (a ++ b).data = a.data ++ b.data := rfl

theorem string_mk_data (s : String) : (⟨s.data⟩ : String) = s := rfl

theorem all_of_takeWhile_eq_self {p : Char → Bool} :
    ∀ (l : List Char), l.takeWhile p = l → l.all p = true := by
  intro l
  induction l with
  | nil => intro _; rfl
  | cons c cs ih =>
    intro h
    rw [List.takeWhile_cons] at h
    by_cases hc : p c
    · rw [if_pos hc] at h
      have := List.cons.inj h
      simp only [List.all_cons, hc, Bool.true_and]
      exact ih this.2
    · rw [if_neg hc] at h
      exact absurd h.symm (List.cons_ne_nil c cs)

theorem takeWhile_append_of_all {p : Char → Bool} :
    ∀ (l r : List Char), l.all p = true →
      (l ++ r).takeWhile p = l ++ r.takeWhile p := by
  intro l r
  induction l with
  | nil => intro _; rfl
  | cons c cs ih =>
    intro h
    simp only [List.all_cons, Bool.and_eq_true] at h
    simp only [List.cons_append, List.takeWhile_cons, if_pos h.1, ih h.2]

/-- The behaviour of `minusculeRun` on a string with a known head. -/
theorem minusculeRun_eq (s : String) (c : Char) (cs : List Char)
    (hd : s.data = c :: cs) :
    minusculeRun s =
      if '1' ≤ c ∧ c ≤ '9' then some ⟨c :: cs.takeWhile isDigitChar⟩ else none := by
  unfold minusculeRun
  rw [hd]

theorem numericFinish_append (ks a : List KeyElem) (w : String) :
    ∃ t, numericFinish (ks ++ a) w = ks ++ t := by
  unfold numericFinish
  split
  · exact ⟨a, rfl⟩
  · exact ⟨a ++ [KeyElem.str w], List.append_assoc ks a [KeyElem.str w]⟩

/-- `numericAndResidual` only ever appends to the rank prefix. -/
theorem numericAndResidual_append (ks : List KeyElem) (w : String) :
    ∃ t, numericAndResidual ks w = ks ++ t := by
  unfold numericAndResidual
  cases minusculeRun w with
  | some run => exact numericFinish_append ks [KeyElem.num (natOfDigits run)] _
  | none => exact numericFinish_append ks [KeyElem.num 10000] w

/-- `get_key` on a witness whose effective type is `papyrus`. -/
theorem get_key_eff_papyrus (id : String) (t : Option String)
    (h : effectiveWitnessType t id = "papyrus") :
    Witness.get_key id t =
      Except.ok (numericAndResidual [KeyElem.num 1] ⟨id.data.drop 1⟩) := by
  simp only [Witness.get_key]
  rw [if_pos h]

/-- `get_key` on a witness whose effective type is `majuscule`. -/
theorem get_key_eff_majuscule (id : String) (t : Option String)
    (h : effectiveWitnessType t id = "majuscule") :
    Witness.get_key id t =
      Except.ok (numericAndResidual [KeyElem.num 2] ⟨id.data.drop 1⟩) := by
  simp only [Witness.get_key]
  rw [if_neg (fun hp => absurd (h.symm.trans hp) (by decide)), if_pos h]

/-- `get_key` on a witness whose effective type is `minuscule`. -/
theorem get_key_eff_minuscule (id : String) (t : Option String)
    (h : effectiveWitnessType t id = "minuscule") :
    Witness.get_key id t =
      Except.ok (numericAndResidual [KeyElem.num 3] id) := by
  simp only [Witness.get_key]
  rw [if_neg (fun hp => absurd (h.symm.trans hp) (by decide)),
    if_neg (fun hp => absurd (h.symm.trans hp) (by decide)), if_pos h]

/-- `get_key` on a witness whose effective type is `lectionary`. -/
theorem get_key_eff_lectionary (id : String) (t : Option String)
    (h : effectiveWitnessType t id = "lectionary") :
    Witness.get_key id t =
      Except.ok (numericAndResidual [KeyElem.num 4] ⟨id.data.drop 1⟩) := by
  simp only [Witness.get_key]
  rw [if_neg (fun hp => absurd (h.symm.trans hp) (by decide)),
    if_neg (fun hp => absurd (h.symm.trans hp) (by decide)),
    if_neg (fun hp => absurd (h.symm.trans hp) (by decide)), if_pos h]

/-- `get_key` on a witness whose effective type is `father`. -/
theorem get_key_eff_father (id : String) (t : Option String)
    (h : effectiveWitnessType t id = "father") :
    Witness.get_key id t =
      Except.ok (numericAndResidual [KeyElem.num (5 + version_prefixes.length)] id) := by
  simp only [Witness.get_key]
  rw [if_neg (fun hp => absurd (h.symm.trans hp) (by decide)),
    if_neg (fun hp => absurd (h.symm.trans hp) (by decide)),
    if_neg (fun hp => absurd (h.symm.trans hp) (by decide)),
    if_neg (fun hp => absurd (h.symm.trans hp) (by decide)),
    if_neg (fun hp => absurd (h.symm.trans hp) (by decide)), if_pos h]

/-- `get_key` on a witness whose effective type is `version`, with a
colon in the id and a registered language prefix. -/
theorem get_key_eff_version (id : String) (t : Option String) (i : Nat)
    (h : effectiveWitnessType t id = "version") (hc : hasColon id = true)
    (hidx : version_prefixes.indexOf? ((splitColon id).headD "") = some i) :
    Witness.get_key id t =
      Except.ok (numericAndResidual [KeyElem.num (5 + i)] ((splitColon id).getD 1 "")) := by
  simp only [Witness.get_key]
  rw [if_neg (fun hp => absurd (h.symm.trans hp) (by decide)),
    if_neg (fun hp => absurd (h.symm.trans hp) (by decide)),
    if_neg (fun hp => absurd (h.symm.trans hp) (by decide)),
    if_neg (fun hp => absurd (h.symm.trans hp) (by decide)),
    if_pos h, if_pos hc, hidx]

/-- **C3** (confirmed).  A corrector witness over a minuscule base gets
its sort key from the type inferred from its siglum shape — rank 3
(minuscule) and the numeric value of the base's digit run — so in the
key-sorted witness list it lands next to the plain minuscule instead of
in a corrector bucket; the type ranks are papyrus = 1, majuscule = 2,
minuscule = 3, lectionary = 4, version = 5 + index of the language in
`version_prefixes`, father = 5 + number of version languages. -/
theorem c3_corrector_sort_key :
    (∀ (base sfx : String) (c : Char) (rest : List Char),
        minusculeRun base = some base →
        sfx.data = c :: rest →
        (c = 'C' ∨ c = 'A' ∨ c = 'K') →
        Witness.get_key (base ++ sfx) (some "corrector") =
          Except.ok [KeyElem.num 3, KeyElem.num (natOfDigits base), KeyElem.str sfx] ∧
        Witness.get_key base (some "minuscule") =
          Except.ok [KeyElem.num 3, KeyElem.num (natOfDigits base)]) ∧
    (∀ id, ∃ t, Witness.get_key id (some "papyrus") = Except.ok (KeyElem.num 1 :: t)) ∧
    (∀ id, ∃ t, Witness.get_key id (some "majuscule") = Except.ok (KeyElem.num 2 :: t)) ∧
    (∀ id, ∃ t, Witness.get_key id (some "minuscule") = Except.ok (KeyElem.num 3 :: t)) ∧
    (∀ id, ∃ t, Witness.get_key id (some "lectionary") = Except.ok (KeyElem.num 4 :: t)) ∧
    (∀ id i, hasColon id = true →
        version_prefixes.indexOf? ((splitColon id).headD "") = some i →
        ∃ t, Witness.get_key id (some "version") = Except.ok (KeyElem.num (5 + i) :: t)) ∧
    (∀ id, ∃ t, Witness.get_key id (some "father") =
        Except.ok (KeyElem.num (5 + version_prefixes.length) :: t)) ∧
    sortKeys
        [[KeyElem.num 12, KeyElem.num 10000, KeyElem.str "AU"],
         [KeyElem.num 3, KeyElem.num 69, KeyElem.str "C"],
         [KeyElem.num 5, KeyElem.num 10000, KeyElem.str "V"],
         [KeyElem.num 3, KeyElem.num 104],
         [KeyElem.num 1, KeyElem.num 57],
         [KeyElem.num 3, KeyElem.num 69],
         [KeyElem.num 4, KeyElem.num 23],
         [KeyElem.num 2, KeyElem.num 25]] =
      [[KeyElem.num 1, KeyElem.num 57],
       [KeyElem.num 2, KeyElem.num 25],
       [KeyElem.num 3, KeyElem.num 69],
       [KeyElem.num 3, KeyElem.num 69, KeyElem.str "C"],
       [KeyElem.num 3, KeyElem.num 104],
       [KeyElem.num 4, KeyElem.num 23],
       [KeyElem.num 5, KeyElem.num 10000, KeyElem.str "V"],
       [KeyElem.num 12, KeyElem.num 10000, KeyElem.str "AU"]] := by
  refine ⟨?_, ?_, ?_, ?_, ?_, ?_, ?_, rfl⟩
  · intro base sfx c rest hbase hsfx hcak
    -- structure of the base siglum: a nonempty digit run with nonzero head
    obtain ⟨c₀, cs₀, hd⟩ : ∃ c₀ cs₀, base.data = c₀ :: cs₀ := by
      cases hb : base.data with
      | nil => rw [minusculeRun, hb] at hbase; exact absurd hbase (by simp)
      | cons x xs => exact ⟨x, xs, rfl⟩
    have hbase' := hbase
    rw [minusculeRun_eq base c₀ cs₀ hd] at hbase'
    have hc₀ : '1' ≤ c₀ ∧ c₀ ≤ '9' := by
      by_cases h : '1' ≤ c₀ ∧ c₀ ≤ '9'
      · exact h
      · rw [if_neg h] at hbase'; exact absurd hbase' (by simp)
    have hrun : cs₀.takeWhile isDigitChar = cs₀ := by
      rw [if_pos hc₀] at hbase'
      have heq := Option.some.inj hbase'
      have hdata : c₀ :: cs₀.takeWhile isDigitChar = base.data := congrArg String.data heq
      rw [hd] at hdata
      exact (List.cons.inj hdata).2
    have hall : cs₀.all isDigitChar = true := all_of_takeWhile_eq_self cs₀ hrun
    have hcdig : isDigitChar c = false := by
      rcases hcak with rfl | rfl | rfl <;> decide
    have hcnotdig : sfx.data.takeWhile isDigitChar = [] := by
      rw [hsfx, List.takeWhile_cons, if_neg (by simp [hcdig])]
    have hsfxne : sfx ≠ "" := by
      intro h; rw [h] at hsfx; exact absurd hsfx (by simp)
    -- the corrector id is still a minuscule-pattern match with the same run
    have happ : (base ++ sfx).data = c₀ :: (cs₀ ++ sfx.data) := by
      rw [string_data_append, hd]; rfl
    have hrunfull : minusculeRun (base ++ sfx) = some base := by
      rw [minusculeRun_eq (base ++ sfx) c₀ (cs₀ ++ sfx.data) happ, if_pos hc₀]
      rw [takeWhile_append_of_all cs₀ sfx.data hall, hcnotdig, List.append_nil]
      rw [← hd, string_mk_data]
    have hdig₀ : isDigitChar c₀ = true := by
      simp only [isDigitChar, Bool.and_eq_true, decide_eq_true_eq]
      exact ⟨le_trans (by decide) hc₀.1, le_trans hc₀.2 (by decide)⟩
    have heff : effectiveWitnessType (some "corrector") (base ++ sfx) = "minuscule" := by
      rw [effectiveWitnessType, if_pos (Or.inr rfl)]
      have hpap : papyrusMatch (base ++ sfx) = false := by
        rw [papyrusMatch, happ]
        have : c₀ ≠ 'P' := by
          intro h; rw [h] at hc₀; exact absurd hc₀.2 (by decide)
        cases cs₀ ++ sfx.data <;> simp [this]
      have hmaj : majusculeMatch (base ++ sfx) = false := by
        rw [majusculeMatch, happ]
        have : c₀ ≠ '0' := by
          intro h; rw [h] at hc₀; exact absurd hc₀.1 (by decide)
        cases cs₀ ++ sfx.data <;> simp [this]
      have hmin : minusculeMatch (base ++ sfx) = true := by
        rw [minusculeMatch, hrunfull]; rfl
      rw [if_neg (by simp [hpap]), if_neg (by simp [hmaj]), if_pos hmin]
    constructor
    · rw [get_key_eff_minuscule (base ++ sfx) (some "corrector") heff]
      unfold numericAndResidual
      simp only [hrunfull]
      have hdrop : (base ++ sfx).data.drop base.data.length = sfx.data := by
        rw [string_data_append]
        exact List.drop_left base.data sfx.data
      rw [hdrop, string_mk_data]
      unfold numericFinish
      rw [if_neg hsfxne]
      rfl
    · have heffb : effectiveWitnessType (some "minuscule") base = "minuscule" := by
        rw [effectiveWitnessType, if_neg (by simp)]; rfl
      rw [get_key_eff_minuscule base (some "minuscule") heffb]
      unfold numericAndResidual
      simp only [hbase]
      have hdrop : base.data.drop base.data.length = [] := by simp
      rw [hdrop]
      unfold numericFinish
      rw [if_pos rfl]
      rfl
  · intro id
    obtain ⟨t, ht⟩ := numericAndResidual_append [KeyElem.num 1] ⟨id.data.drop 1⟩
    exact ⟨t, by
      rw [get_key_eff_papyrus id (some "papyrus")
        (by rw [effectiveWitnessType, if_neg (by simp)]; rfl), ht]
      rfl⟩
  · intro id
    obtain ⟨t, ht⟩ := numericAndResidual_append [KeyElem.num 2] ⟨id.data.drop 1⟩
    exact ⟨t, by
      rw [get_key_eff_majuscule id (some "majuscule")
        (by rw [effectiveWitnessType, if_neg (by simp)]; rfl), ht]
      rfl⟩
  · intro id
    obtain ⟨t, ht⟩ := numericAndResidual_append [KeyElem.num 3] id
    exact ⟨t, by
      rw [get_key_eff_minuscule id (some "minuscule")
        (by rw [effectiveWitnessType, if_neg (by simp)]; rfl), ht]
      rfl⟩
  · intro id
    obtain ⟨t, ht⟩ := numericAndResidual_append [KeyElem.num 4] ⟨id.data.drop 1⟩
    exact ⟨t, by
      rw [get_key_eff_lectionary id (some "lectionary")
        (by rw [effectiveWitnessType, if_neg (by simp)]; rfl), ht]
      rfl⟩
  · intro id i hcolon hidx
    obtain ⟨t, ht⟩ :=
      numericAndResidual_append [KeyElem.num (5 + i)] ((splitColon id).getD 1 "")
    exact ⟨t, by
      rw [get_key_eff_version id (some "version") i
        (by rw [effectiveWitnessType, if_neg (by simp)]; rfl) hcolon hidx, ht]
      rfl⟩
  · intro id
    obtain ⟨t, ht⟩ :=
      numericAndResidual_append [KeyElem.num (5 + version_prefixes.length)] id
    exact ⟨t, by
      rw [get_key_eff_father id (some "father")
        (by rw [effectiveWitnessType, if_neg (by simp)]; rfl), ht]
      rfl⟩

/-- Witness for C3: the corrector `69C` keyed next to the minuscule `69`. -/
theorem c3_witness :
    Witness.get_key ("69" ++ "C") (some "corrector") =
      Except.ok [KeyElem.num 3, KeyElem.num (natOfDigits "69"), KeyElem.str "C"] ∧
    Witness.get_key "69" (some "minuscule") =
      Except.ok [KeyElem.num 3, KeyElem.num (natOfDigits "69")] :=
  c3_corrector_sort_key.1 "69" "C" 'C' [] rfl rfl (Or.inl rfl)

/-- A separator split never yields an empty field list
(`"".split(sep) == [""]` in Python). -/
theorem pySplitSepL_ne_nil (sep : List Char) :
    ∀ (fuel : Nat) (s : List Char), pySplitSepL sep fuel s ≠ [] := by
  intro fuel
  induction fuel with
  | zero => intro s; simp [pySplitSepL]
  | succ f ih =>
    intro s
    cases s with
    | nil => simp [pySplitSepL]
    | cons c cs =>
      simp only [pySplitSepL]
      split
      · simp
      · cases hrec : pySplitSepL sep f cs with
        | nil => exact absurd hrec (ih cs)
        | cons a as => simp [hrec, List.modifyHead]

theorem pySplitSep_ne_nil (s sep : String) : pySplitSep s sep ≠ [] := by
  unfold pySplitSep
  simp only [ne_eq, List.map_eq_nil_iff]
  exact pySplitSepL_ne_nil sep.data _ s.data

/-- The only types `Reading.typeOfLabel` can produce. -/
theorem Reading.typeOfLabel_cases (lab : String) :
    Reading.typeOfLabel lab = none ∨ Reading.typeOfLabel lab = some "defective" ∨
    Reading.typeOfLabel lab = some "orthographic" ∨ Reading.typeOfLabel lab = some "overlap" ∨
    Reading.typeOfLabel lab = some "ambiguous" ∨ Reading.typeOfLabel lab = some "lac" := by
  unfold Reading.typeOfLabel
  split_ifs <;> simp

/-- `Reading.typeOfLabel` infers `ambiguous` exactly for the ambiguous label
constant `"zw"`. -/
theorem Reading.typeOfLabel_ambiguous_iff (lab : String) :
    Reading.typeOfLabel lab = some "ambiguous" ↔ lab = ambiguous_label := by
  unfold Reading.typeOfLabel
  split_ifs with h1 h2 h3 h4 h5
  · constructor
    · intro h; exact absurd h (by simp)
    · intro h; rw [h] at h1; exact absurd h1 (by decide)
  · constructor
    · intro h; exact absurd h (by simp)
    · intro h; rw [h] at h2; exact absurd h2 (by decide)
  · constructor
    · intro h; exact absurd h (by simp)
    · intro h; rw [h] at h3; exact absurd h3 (by decide)
  · simp [h4]
  · constructor
    · intro h; exact absurd h (by simp)
    · intro h; exact absurd h h4
  · constructor
    · intro h; exact absurd h (by simp)
    · intro h; exact absurd h h4

/-- Inversion of a successful `parse_xml_model`: the element had a label
and a `witnesses` attribute, and every field of the resulting `Reading`
is determined as in reading.py lines 51-79. -/
theorem parse_xml_model_ok (xml : SegmentReadingElem) (flag : Bool) (r : Reading)
    (h : Reading.parse_xml_model xml flag = Except.ok r) :
    ∃ l w, xml.label = some l ∧ xml.witnesses = some w ∧
      r.id = pyStrip (pyReplace l "â™¦" "") ∧
      r.wits = pySplit w ∧
      r.type = (if flag ∧ Reading.typeOfLabel r.id = none ∧ r.wits.length ≤ 1
          then some "subreading" else Reading.typeOfLabel r.id) ∧
      Reading.targetsOf (Reading.typeOfLabel r.id) xml.reading = Except.ok r.targets ∧
      r.text = Reading.textOf r.type xml.text := by
  unfold Reading.parse_xml_model at h
  cases hl : xml.label with
  | none => rw [hl] at h; simp at h
  | some l =>
    rw [hl] at h
    simp only [] at h
    cases htg : Reading.targetsOf (Reading.typeOfLabel (pyStrip (pyReplace l "â™¦" ""))) xml.reading with
    | error e => rw [htg] at h; simp at h
    | ok tgts =>
      rw [htg] at h
      cases hw : xml.witnesses with
      | none => rw [hw] at h; simp at h
      | some w =>
        rw [hw] at h
        simp only [Except.ok.injEq] at h
        subst h
        exact ⟨l, w, rfl, rfl, rfl, rfl, rfl, htg, rfl⟩

/-- **C6** (code bug).  As written, `Reading.parse_xml` raises
`NameError` on every element (the name `label` is never bound); with the
evident one-line repair (spec §4.4), the parse sets type `ambiguous`
exactly when the marker-stripped label equals the ambiguous label
constant, only then fills `targets` (raw target `"a_f/b"` becomes
`["a", "b"]` after removing `_f` and splitting on `/`), and `targets` is
non-empty exactly for ambiguous readings. -/
theorem c6_ambiguous_targets :
    Reading.parse_xml ⟨some "zw", some "a_f/b", some "01", none⟩ false =
      Except.error (PyErr.nameError "label") ∧
    Reading.parse_xml_model ⟨some "zw", some "a_f/b", some "01", none⟩ false =
      Except.ok ⟨"zw", some "ambiguous", ["a", "b"], ["01"], none⟩ ∧
    (∀ xml flag r, Reading.parse_xml_model xml flag = Except.ok r →
      ((r.targets ≠ [] ↔ r.type = some "ambiguous") ∧
       (∀ l, xml.label = some l →
         (r.type = some "ambiguous" ↔
           pyStrip (pyReplace l "â™¦" "") = ambiguous_label)))) := by
  refine ⟨rfl, rfl, ?_⟩
  intro xml flag r h
  obtain ⟨l, w, hl, hw, hid, hwits, hty, htg, htx⟩ := parse_xml_model_ok xml flag r h
  have hiff : r.type = some "ambiguous" ↔ Reading.typeOfLabel r.id = some "ambiguous" := by
    rw [hty]
    by_cases hcond : flag ∧ Reading.typeOfLabel r.id = none ∧ r.wits.length ≤ 1
    · rw [if_pos hcond]
      constructor
      · intro hx; exact absurd (Option.some.inj hx) (by decide)
      · intro hx; rw [hcond.2.1] at hx; exact absurd hx (by simp)
    · rw [if_neg hcond]
  constructor
  · constructor
    · intro hne
      rw [hiff]
      by_cases hamb : Reading.typeOfLabel r.id = some "ambiguous"
      · exact hamb
      · unfold Reading.targetsOf at htg
        rw [if_neg hamb] at htg
        exact absurd (Except.ok.inj htg).symm hne
    · intro hty2
      have hamb := hiff.mp hty2
      unfold Reading.targetsOf at htg
      rw [if_pos hamb] at htg
      cases hrd : xml.reading with
      | none => rw [hrd] at htg; simp at htg
      | some rd =>
        rw [hrd] at htg
        have heq : pySplitSep (pyReplace rd "_f" "") "/" = r.targets :=
          Except.ok.inj htg
        rw [← heq]
        exact pySplitSep_ne_nil _ _
  · intro l' hl'
    rw [hl] at hl'
    obtain rfl : l = l' := Option.some.inj hl'
    rw [← hid]
    exact hiff.trans (Reading.typeOfLabel_ambiguous_iff r.id)

/-- Witness for C6: the invariant instantiated at the concrete ambiguous
element. -/
theorem c6_witness :
    (["a", "b"] : List String) ≠ [] ↔
      (some "ambiguous" : Option String) = some "ambiguous" :=
  (c6_ambiguous_targets.2.2 ⟨some "zw", some "a_f/b", some "01", none⟩ false
    ⟨"zw", some "ambiguous", ["a", "b"], ["01"], none⟩ rfl).1

/-- **C7** (code bug).  As written, `Reading.parse_xml` raises
`NameError` on every element; with the evident repair (spec §4.4), the
text is left absent for the ambiguous/unclear/overlap/lac types (the
inferred type is in fact never `unclear`), and for every other type the
text equals the element's raw text unless that text is the omission
marker `om.`, which yields no text rather than the literal marker. -/
theorem c7_text_extraction :
    Reading.parse_xml ⟨some "a", none, some "01", some "om."⟩ false =
      Except.error (PyErr.nameError "label") ∧
    Reading.parse_xml_model ⟨some "a", none, some "01", some "om."⟩ false =
      Except.ok ⟨"a", none, [], ["01"], none⟩ ∧
    (∀ xml flag r, Reading.parse_xml_model xml flag = Except.ok r →
      (r.type ≠ some "unclear" ∧
       (r.type ∈ [some "ambiguous", some "unclear", some "overlap", some "lac"] →
         r.text = none) ∧
       (r.type ∉ [some "ambiguous", some "unclear", some "overlap", some "lac"] →
         r.text = (match xml.text with
                   | some tx => if tx ≠ omission_string then some tx else none
                   | none => none)))) := by
  refine ⟨rfl, rfl, ?_⟩
  intro xml flag r h
  obtain ⟨l, w, hl, hw, hid, hwits, hty, htg, htx⟩ := parse_xml_model_ok xml flag r h
  have hunclear : r.type ≠ some "unclear" := by
    rw [hty]
    by_cases hcond : flag ∧ Reading.typeOfLabel r.id = none ∧ r.wits.length ≤ 1
    · rw [if_pos hcond]; simp
    · rw [if_neg hcond]
      rcases Reading.typeOfLabel_cases r.id with hc | hc | hc | hc | hc | hc <;>
        simp [hc]
  refine ⟨hunclear, ?_, ?_⟩
  · intro hmem
    simp only [List.mem_cons, List.not_mem_nil, or_false] at hmem
    have hmem3 : ¬ r.type ∉ [some "ambiguous", some "overlap", some "lac"] := by
      intro hno
      simp only [List.mem_cons, List.not_mem_nil, or_false, not_or] at hno
      rcases hmem with hc | hc | hc | hc
      · exact hno.1 hc
      · exact hunclear hc
      · exact hno.2.1 hc
      · exact hno.2.2 hc
    rw [htx]
    unfold Reading.textOf
    rw [if_neg hmem3]
  · intro hmem
    have hmem3 : r.type ∉ [some "ambiguous", some "overlap", some "lac"] := by
      intro hin
      apply hmem
      simp only [List.mem_cons, List.not_mem_nil, or_false] at hin ⊢
      tauto
    rw [htx]
    unfold Reading.textOf
    rw [if_pos hmem3]

/-- Witness for C7: the omission marker suppressed at the concrete
element. -/
theorem c7_witness :
    (none : Option String) =
      (match (some "om." : Option String) with
       | some tx => if tx ≠ omission_string then some tx else none
       | none => none) :=
  (c7_text_extraction.2.2 ⟨some "a", none, some "01", some "om."⟩ false
    ⟨"a", none, [], ["01"], none⟩ rfl).2.2 (by decide)

/-- **C8** counterexample.  A segmentReading without a `witnesses`
attribute does not produce a structured per-reading error: the segment
cleanup raises a bare `AttributeError` (from `None.replace` at common.py
line 282) with no unit/reading identification, and no reading of the
segment is processed at all — the first reading's `Byz` token is never
expanded, contradicting the claim that only the offending reading is
affected. -/
theorem c8_counterexample :
    cleanupSegment ["014", "025", "049"] [some "014 Byz", none] =
      Except.error PyErr.attributeErrorNone ∧
    (∀ u rdg, (Except.error PyErr.attributeErrorNone :
        Except PyErr (List String)) ≠ Except.error (PyErr.missingWitnesses u rdg)) ∧
    (∀ out, cleanupSegment ["014", "025", "049"] [some "014 Byz", none] ≠
        Except.ok out) := by
  refine ⟨rfl, ?_, ?_⟩
  · intro u rdg h
    exact PyErr.noConfusion (Except.error.inj h)
  · intro out h
    rw [show cleanupSegment ["014", "025", "049"] [some "014 Byz", none] =
        Except.error PyErr.attributeErrorNone from rfl] at h
    exact Except.noConfusion h

/-- **C8** (corrected).  Amended claim: a segmentReading whose
`witnesses` attribute is absent makes `cleanup_witness_lists` raise an
unstructured `AttributeError` that aborts the processing of the whole
segment — every earlier reading that cleans up successfully is processed
and then discarded, no later reading is processed, and no structured
error identifying the unit or reading exists anywhere in the code. -/
theorem c8_missing_witnesses_aborts :
    ∀ (byz : List String) (pre post : List (Option String)),
      (∀ x ∈ pre, ∃ w, x = some w ∧ (cleanupReadingString w).isOk = true) →
      cleanupSegment byz (pre ++ none :: post) =
        Except.error PyErr.attributeErrorNone := by
  intro byz pre post hpre
  unfold cleanupSegment
  suffices h : cleanupPass1 (pre ++ none :: post) =
      Except.error PyErr.attributeErrorNone by
    rw [h]; rfl
  induction pre with
  | nil => rfl
  | cons x xs ih =>
    obtain ⟨w, rfl, hok⟩ := hpre x (List.mem_cons_self x xs)
    obtain ⟨cw, hcw⟩ : ∃ cw, cleanupReadingString w = Except.ok cw := by
      cases hx : cleanupReadingString w with
      | ok cw => exact ⟨cw, rfl⟩
      | error e => rw [hx] at hok; exact absurd hok (by simp [Except.isOk, Except.toBool])
    have ih' := ih fun y hy => hpre y (List.mem_cons_of_mem _ hy)
    simp only [List.cons_append, cleanupPass1, hcw, bind, Except.bind,
      List.append_eq, ih']

/-- Witness for C8: the abort applied behind one successfully cleaned
reading, with the real Byzantine membership list. -/
theorem c8_witness :
    cleanupSegment byz_witnesses [some "025", none, some "014"] =
      Except.error PyErr.attributeErrorNone :=
  c8_missing_witnesses_aborts byz_witnesses [some "025"] [some "014"]
    (by
      intro x hx
      rw [List.mem_singleton] at hx
      subst hx
      exact ⟨"025", rfl, rfl⟩)

/-! ## Infrastructure for claim C4 -/

theorem string_ne_empty_iff (s : String) : s ≠ "" ↔ s.data ≠ [] := by
  constructor
  · intro h hdata
    apply h
    have hmk : s = (⟨s.data⟩ : String) := rfl
    rw [hmk, hdata]
  · intro h hs
    apply h
    rw [hs]

theorem string_empty_append (s : String) : "" ++ s = s := by
  have : ("" ++ s).data = s.data := by rw [string_data_append]; rfl
  cases s
  cases this
  rfl

theorem takeWhile_eq_self_of_all {p : Char → Bool} :
    ∀ (l : List Char), l.all p = true → l.takeWhile p = l := by
  intro l
  induction l with
  | nil => intro _; rfl
  | cons c cs ih =>
    intro h
    simp only [List.all_cons, Bool.and_eq_true] at h
    simp only [List.takeWhile_cons, if_pos h.1, ih h.2]

theorem dropWhile_append_of_all {p : Char → Bool} :
    ∀ (l r : List Char), l.all p = true →
      (l ++ r).dropWhile p = r.dropWhile p := by
  intro l r
  induction l with
  | nil => intro _; rfl
  | cons c cs ih =>
    intro h
    simp only [List.all_cons, Bool.and_eq_true] at h
    simp only [List.cons_append, List.dropWhile_cons, h.1, if_pos, ih h.2]

theorem isPrefixOf_self : ∀ (l : List Char), l.isPrefixOf l = true := by
  intro l
  induction l with
  | nil => rfl
  | cons c cs ih => simp [List.isPrefixOf, ih]

/-- `joinSpace` computes `joinL` on the character lists. -/
theorem joinSpace_data :
    ∀ (toks : List String), (joinSpace toks).data = joinL (toks.map String.data) := by
  intro toks
  induction toks with
  | nil => rfl
  | cons x xs ih =>
    cases xs with
    | nil => rfl
    | cons y ys =>
      show (x ++ " " ++ joinSpace (y :: ys)).data = x.data ++ ' ' :: joinL ((y :: ys).map String.data)
      rw [string_data_append, string_data_append, ← ih]
      simp

/-- Splitting a single-space join of nonempty whitespace-free tokens
recovers the tokens (character-list level). -/
theorem pySplitL_joinL :
    ∀ (toks : List (List Char)) (fuel : Nat),
      (∀ u ∈ toks, u ≠ [] ∧ u.all (fun c => !isPySpace c) = true) →
      (joinL toks).length < fuel →
      pySplitL fuel (joinL toks) = toks := by
  intro toks
  induction toks with
  | nil =>
    intro fuel _ hfuel
    cases fuel with
    | zero => exact absurd hfuel (by simp)
    | succ f => rfl
  | cons u us ih =>
    intro fuel h hfuel
    obtain ⟨hu, huall⟩ := h u (List.mem_cons_self u us)
    obtain ⟨c, cs, rfl⟩ : ∃ c cs, u = c :: cs := by
      cases u with
      | nil => exact absurd rfl hu
      | cons c cs => exact ⟨c, cs, rfl⟩
    simp only [List.all_cons, Bool.and_eq_true] at huall
    have hc : isPySpace c = false := by
      cases hcc : isPySpace c
      · rfl
      · rw [hcc] at huall; exact absurd huall.1 (by simp)
    cases us with
    | nil =>
      cases fuel with
      | zero => exact absurd hfuel (by simp [joinL])
      | succ f =>
        show pySplitL (f + 1) (c :: cs) = [c :: cs]
        simp only [pySplitL, hc, Bool.false_eq_true, if_neg, not_false_iff,
          takeWhile_eq_self_of_all cs huall.2]
        have hdrop : cs.dropWhile (fun d => !isPySpace d) = [] := by
          rw [← List.append_nil cs, dropWhile_append_of_all cs [] huall.2]
          rfl
        rw [hdrop]
        cases f <;> rfl
    | cons v vs =>
      have hjoin : joinL ((c :: cs) :: v :: vs) = c :: (cs ++ ' ' :: joinL (v :: vs)) := rfl
      rw [hjoin] at hfuel ⊢
      cases fuel with
      | zero => exact absurd hfuel (by simp)
      | succ f =>
        simp only [pySplitL, hc, Bool.false_eq_true, if_neg, not_false_iff]
        rw [takeWhile_append_of_all cs (' ' :: joinL (v :: vs)) huall.2,
          dropWhile_append_of_all cs (' ' :: joinL (v :: vs)) huall.2]
        have htk : (' ' :: joinL (v :: vs)).takeWhile (fun d => !isPySpace d) = [] := by
          simp [List.takeWhile_cons, isPySpace]
        have hdp : (' ' :: joinL (v :: vs)).dropWhile (fun d => !isPySpace d) =
            ' ' :: joinL (v :: vs) := by
          simp [List.dropWhile_cons, isPySpace]
        rw [htk, hdp, List.append_nil]
        have hlen : (joinL (v :: vs)).length + 2 ≤ f := by
          simp only [List.length_cons, List.length_append] at hfuel
          omega
        cases f with
        | zero => exact absurd hlen (by simp)
        | succ g =>
          have hsp : pySplitL (g + 1) (' ' :: joinL (v :: vs)) =
              pySplitL g (joinL (v :: vs)) := by
            simp only [pySplitL]
            rw [if_pos (show isPySpace ' ' = true from rfl)]
          rw [hsp, ih g (fun y hy => h y (List.mem_cons_of_mem _ hy)) (by omega)]
theorem string_ext {a b : String} (h : a.data = b.data) : a = b := by
  cases a; cases b; cases h; rfl

/-- Splitting a single-space join of nonempty whitespace-free tokens
recovers the tokens. -/
theorem pySplit_joinSpace (toks : List String)
    (h : ∀ u ∈ toks, u ≠ "" ∧ u.data.all (fun c => !isPySpace c) = true) :
    pySplit (joinSpace toks) = toks := by
  unfold pySplit
  rw [joinSpace_data]
  rw [pySplitL_joinL (toks.map String.data) ((joinL (toks.map String.data)).length + 1)
    ?hh ?hf]
  · rw [List.map_map]
    have hid : (String.mk ∘ String.data) = id := funext fun s => string_mk_data s
    rw [hid, List.map_id]
  case hh =>
    intro u hu
    rw [List.mem_map] at hu
    obtain ⟨x, hx, rfl⟩ := hu
    exact ⟨(string_ne_empty_iff x).mp (h x hx).1, (h x hx).2⟩
  case hf => omega

theorem joinSpace_append :
    ∀ (a b : List String), a ≠ [] → b ≠ [] →
      joinSpace (a ++ b) = joinSpace a ++ " " ++ joinSpace b := by
  intro a
  induction a with
  | nil => intro b h _; exact absurd rfl h
  | cons x xs ih =>
    intro b _ hb
    cases xs with
    | nil =>
      cases b with
      | nil => exact absurd rfl hb
      | cons y ys => rfl
    | cons z zs =>
      have h1 : joinSpace (x :: (z :: zs ++ b)) = x ++ " " ++ joinSpace (z :: zs ++ b) := rfl
      show joinSpace (x :: (z :: zs ++ b)) = joinSpace (x :: z :: zs) ++ " " ++ joinSpace b
      rw [h1, ih b (by simp) hb]
      have h2 : joinSpace (x :: z :: zs) = x ++ " " ++ joinSpace (z :: zs) := rfl
      rw [h2]
      apply string_ext
      simp [string_data_append, List.append_assoc]

theorem specNormalizeBlock_ne_nil (vpre t : String) (ts : List String) :
    specNormalizeBlock vpre (t :: ts) ≠ [] := by
  unfold specNormalizeBlock
  split <;> simp

theorem joinSpace_cons_ne_empty (t : String) (ts : List String) (ht : t ≠ "") :
    joinSpace (t :: ts) ≠ "" := by
  rw [string_ne_empty_iff] at ht ⊢
  rw [joinSpace_data]
  cases ts with
  | nil => exact ht
  | cons y ys => simp [joinL]

/-- When the pattern occurs only as the final suffix, one `str.replace`
pass rewrites exactly that occurrence. -/
theorem pyReplaceCore_unique (pat r : List Char) (hp : pat ≠ []) :
    ∀ (A : List Char) (fuel : Nat), (A ++ pat).length ≤ fuel →
      (∀ i, i < A.length → pat.isPrefixOf ((A ++ pat).drop i) = false) →
      pyReplaceCore pat r fuel (A ++ pat) = A ++ r := by
  intro A
  induction A with
  | nil =>
    intro fuel hfuel _
    cases pat with
    | nil => exact absurd rfl hp
    | cons c cs =>
      cases fuel with
      | zero => exact absurd hfuel (by simp)
      | succ f =>
        show pyReplaceCore (c :: cs) r (f + 1) ([] ++ c :: cs) = [] ++ r
        simp only [List.nil_append, pyReplaceCore]
        rw [if_pos ?hpref]
        case hpref => exact isPrefixOf_self (c :: cs)
        have hdrop : cs.drop ((c :: cs).length - 1) = [] := by
          simp
        rw [hdrop]
        have hnil : pyReplaceCore (c :: cs) r f [] = [] := by
          cases f <;> rfl
        rw [hnil, List.append_nil]
  | cons a A' ih =>
    intro fuel hfuel hno
    cases fuel with
    | zero => exact absurd hfuel (by simp)
    | succ f =>
      show pyReplaceCore pat r (f + 1) (a :: (A' ++ pat)) = a :: (A' ++ r)
      simp only [pyReplaceCore]
      rw [if_neg ?hnp]
      case hnp =>
        have h0 := hno 0 (by simp)
        simp only [List.drop_zero, List.cons_append] at h0
        simp [h0]
      have hrec := ih f (by simp at hfuel ⊢; omega) ?hsh
      case hsh =>
        intro i hi
        have := hno (i + 1) (by simp; omega)
        simpa using this
      rw [hrec]

/-- String-level version of `pyReplaceCore_unique`. -/
theorem pyReplace_unique (A pat r : String) (hp : pat ≠ "")
    (hno : ∀ i, i < A.data.length →
      pat.data.isPrefixOf ((A.data ++ pat.data).drop i) = false) :
    pyReplace (A ++ pat) pat r = A ++ r := by
  unfold pyReplace pyReplaceL
  rw [string_data_append]
  rw [if_neg ((string_ne_empty_iff pat).mp hp)]
  rw [pyReplaceCore_unique pat.data r.data ((string_ne_empty_iff pat).mp hp)
    A.data (A.data ++ pat.data).length (Nat.le_refl _) hno]
  apply string_ext
  rw [string_data_append]

/-- Tokens before the first version-start token are skipped by the
`normalize_versional_sigla` scan. -/
theorem normLoop_skip :
    ∀ (pre rest : List String), (∀ u ∈ pre, versionStartMatch u = false) →
      normLoop "" (pre ++ rest) = normLoop "" rest := by
  intro pre
  induction pre with
  | nil => intro rest _; rfl
  | cons u us ih =>
    intro rest h
    have hu := h u (List.mem_cons_self u us)
    show normLoop "" (u :: (us ++ rest)) = normLoop "" rest
    simp only [normLoop]
    rw [if_pos ⟨trivial, by simp [hu]⟩]
    exact ih rest fun y hy => h y (List.mem_cons_of_mem _ hy)

/-- Once a nonempty version prefix is active, the scan of
`normalize_versional_sigla` rewrites every colon-free token exactly as
described by `specNormalizeBlock`. -/
theorem normLoop_nonempty :
    ∀ (ts : List String) (vpre : String), vpre ≠ "" →
      (∀ u ∈ ts, u ≠ "" ∧ hasColon u = false) →
      normLoop vpre ts = Except.ok (ts, specNormalizeBlock vpre ts) := by
  intro ts
  induction ts with
  | nil => intro vpre _ _; rfl
  | cons u us ih =>
    intro vpre hv h
    obtain ⟨hu, hucolon⟩ := h u (List.mem_cons_self u us)
    have hrest := fun y hy => h y (List.mem_cons_of_mem u hy)
    by_cases hvs : versionStartMatch u = true
    · simp only [normLoop]
      rw [if_neg (fun hcond => hv hcond.1), if_pos hvs, if_neg (by simp [hucolon])]
      simp only [ih u hu hrest, bind, Except.bind]
      simp only [specNormalizeBlock, if_pos hvs]
    · simp only [normLoop]
      rw [if_neg (fun hcond => hv hcond.1), if_neg hvs]
      simp only [ih vpre hv hrest, bind, Except.bind]
      simp only [specNormalizeBlock, if_neg hvs]

/-- The scan at the first version-start token (empty prefix so far). -/
theorem normLoop_start (t : String) (post : List String)
    (ht : versionStartMatch t = true)
    (h : ∀ u ∈ t :: post, u ≠ "" ∧ hasColon u = false) :
    normLoop "" (t :: post) =
      Except.ok (t :: post, specNormalizeBlock "" (t :: post)) := by
  obtain ⟨htne, htcolon⟩ := h t (List.mem_cons_self t post)
  simp only [normLoop]
  rw [if_neg (fun hcond => absurd ht hcond.2), if_pos ht, if_neg (by simp [htcolon])]
  simp only [normLoop_nonempty post t htne (fun y hy => h y (List.mem_cons_of_mem t hy)),
    bind, Except.bind]
  simp only [specNormalizeBlock, if_pos ht]

/-- **C4** counterexample.  The claim says tokens preceding the first
version-start token are left unchanged, but the final splice of
`normalize_versional_sigla` is a plain string `replace` of the joined
block (common.py line 264): for `"AK A"` the block is the single token
`"A"`, whose replacement `"A:A"` is substituted at *every* occurrence of
the substring `"A"`, mangling the preceding token `"AK"` into `"A:AK"`
instead of leaving it untouched (claimed result: `"AK A:A"`). -/
theorem c4_counterexample :
    normalize_versional_sigla "AK A" = Except.ok "A:AK A:A" ∧
    versionStartMatch "AK" = false ∧
    versionStartMatch "A" = true ∧
    pySplit "AK A" = ["AK", "A"] ∧
    ("A:AK A:A" : String) ≠ "AK" ++ " " ++ "A:A" := by
  exact ⟨rfl, rfl, rfl, rfl, by decide⟩

/-- **C4** (corrected).  Amended claim: in versional-sigla normalization
every token preceding the first version-start token is left unchanged
*provided* the space-joined versional block does not also occur as a
substring starting earlier in the string; under that proviso (with
single-space-separated, colon-free tokens) every bare token after a
version-start token inherits the current version prefix and `:` until
the next version-start token or the end, exactly as `specNormalizeBlock`
describes, and the concrete example `"L:V AU 2"` indeed normalizes to
`"L:V L:AU L:2"`. -/
theorem c4_versional_carry_over :
    (∀ (pre : List String) (t : String) (post : List String),
        (∀ u ∈ pre ++ t :: post, u ≠ "" ∧ u.data.all (fun c => !isPySpace c) = true ∧
          hasColon u = false) →
        (∀ u ∈ pre, versionStartMatch u = false) →
        versionStartMatch t = true →
        (∀ i, i < (joinSpace (pre ++ t :: post)).length - (joinSpace (t :: post)).length →
          (joinSpace (t :: post)).data.isPrefixOf
            ((joinSpace (pre ++ t :: post)).data.drop i) = false) →
        normalize_versional_sigla (joinSpace (pre ++ t :: post)) =
          Except.ok (joinSpace (pre ++ specNormalizeBlock "" (t :: post)))) ∧
    normalize_versional_sigla "L:V AU 2" = Except.ok "L:V L:AU L:2" := by
  refine ⟨?_, rfl⟩
  intro pre t post hwf hpre ht huniq
  have hwf' : ∀ u ∈ pre ++ t :: post,
      u ≠ "" ∧ u.data.all (fun c => !isPySpace c) = true :=
    fun u hu => ⟨(hwf u hu).1, (hwf u hu).2.1⟩
  have hsplit := pySplit_joinSpace (pre ++ t :: post) hwf'
  have hblockwf : ∀ u ∈ t :: post, u ≠ "" ∧ hasColon u = false := by
    intro u hu
    have h := hwf u (List.mem_append.mpr (Or.inr hu))
    exact ⟨h.1, h.2.2⟩
  have hloop : normLoop "" (pre ++ t :: post) =
      Except.ok (t :: post, specNormalizeBlock "" (t :: post)) := by
    rw [normLoop_skip pre (t :: post) hpre]
    exact normLoop_start t post ht hblockwf
  have htne : t ≠ "" := (hblockwf t (List.mem_cons_self t post)).1
  have hblockne : joinSpace (t :: post) ≠ "" := joinSpace_cons_ne_empty t post htne
  unfold normalize_versional_sigla
  rw [hsplit, hloop]
  simp only [bind, Except.bind]
  congr 1
  by_cases hpn : pre = []
  · subst hpn
    simp only [List.nil_append]
    have hrepl := pyReplace_unique "" (joinSpace (t :: post))
      (joinSpace (specNormalizeBlock "" (t :: post))) hblockne
      (by intro i hi; exact absurd hi (by simp))
    rw [string_empty_append, string_empty_append] at hrepl
    exact hrepl
  · have hjoin : joinSpace (pre ++ t :: post) =
        (joinSpace pre ++ " ") ++ joinSpace (t :: post) := by
      rw [joinSpace_append pre (t :: post) hpn (by simp)]
    have hlen : ∀ (x : String), x.length = x.data.length := fun x => rfl
    have hno : ∀ i, i < (joinSpace pre ++ " ").data.length →
        (joinSpace (t :: post)).data.isPrefixOf
          (((joinSpace pre ++ " ").data ++ (joinSpace (t :: post)).data).drop i) =
            false := by
      intro i hi
      have hb : i < (joinSpace (pre ++ t :: post)).length -
          (joinSpace (t :: post)).length := by
        rw [hlen, hlen, hjoin, string_data_append, List.length_append]
        omega
      have h1 := huniq i hb
      rw [hjoin, string_data_append] at h1
      exact h1
    have hrepl := pyReplace_unique (joinSpace pre ++ " ") (joinSpace (t :: post))
      (joinSpace (specNormalizeBlock "" (t :: post))) hblockne hno
    rw [hjoin, hrepl]
    rw [joinSpace_append pre (specNormalizeBlock "" (t :: post)) hpn
      (specNormalizeBlock_ne_nil "" t post)]

/-- Witness for C4: the amended statement applied at `"01 A 2"` (the
block `"A 2"` occurs only once), rewriting the block to `A:A A:2` and
leaving the preceding token `01` unchanged. -/
theorem c4_witness :
    normalize_versional_sigla (joinSpace (["01"] ++ "A" :: ["2"])) =
      Except.ok (joinSpace (["01"] ++ specNormalizeBlock "" ("A" :: ["2"]))) :=
  c4_versional_carry_over.1 ["01"] "A" ["2"]
    (by decide) (by decide) (by decide) (by decide)

end Vmr
